import Mathlib

set_option maxHeartbeats 1000000

/- Verification of the `Route` class from `src/index.ts`.

The reference implementation turns a template string into a regular
expression: every placeholder (a left brace, one or more non-brace
characters, and a right brace — the global pattern `PARAM_MATCHER`) is
replaced by the capturing group `([^/]+)` and the whole pattern is anchored
with a leading caret and a trailing dollar.  `match` tests a path against
that regular expression, `parse` extracts the capture groups into an object
keyed by the placeholder names (later occurrences of a repeated name
overwrite earlier ones), and `compile` substitutes supplied values back into
the template, throwing on absent or falsy values.

The embedding below models the template as a list of tokens (literal
characters and placeholder names), models the generated pattern string, and
implements the matcher semantics of that pattern — anchored matching where
each group greedily consumes one or more non-separator characters with
backtracking, exactly as a JavaScript regular expression engine does on the
generated patterns whose literal characters carry no special meaning (the
dot, which the engine treats as an any-character wildcard, is also modelled;
other metacharacters in literal positions are outside the modelled fragment
and the theorems that depend on literal semantics carry a `plainToks`
hypothesis). -/

/-- Token view of a route template: literal characters and placeholder
names, exactly the decomposition performed by the reference implementation's
global replacement of `PARAM_MATCHER` (a left brace, one or more characters
that are neither brace, then a right brace). -/
inductive Tok where
  | lit (c : Char)
  | param (name : String)
deriving DecidableEq, Repr

/-- Take the maximal leading run of literal non-brace characters of a token
list, returning the run and the remainder.  Used to recognise a placeholder
when a left brace is prepended during tokenisation. -/
def splitRun : List Tok → List Char × List Tok
  | Tok.lit c :: ts =>
    if c ≠ '{' ∧ c ≠ '}' then
      let p := splitRun ts
      (c :: p.1, p.2)
    else ([], Tok.lit c :: ts)
  | ts => ([], ts)

/-- Prepend one character to an already tokenised suffix.  A left brace that
is immediately followed by a non-empty literal run of non-brace characters
and a literal right brace forms a placeholder; any other character stays
literal.  Candidate placeholders of a template are pairwise disjoint, so this
right-to-left pass recognises exactly the occurrences that the reference
implementation's left-to-right global replacement does. -/
def pushChar (c : Char) (ts : List Tok) : List Tok :=
  if c = '{' then
    match splitRun ts with
    | (run, Tok.lit d :: rest) =>
      if d = '}' ∧ run ≠ [] then Tok.param (String.mk run) :: rest
      else Tok.lit c :: ts
    | _ => Tok.lit c :: ts
  else Tok.lit c :: ts

/-- Tokenise a template, mirroring the reference implementation's
`format.replaceAll(PARAM_MATCHER, ...)` decomposition. -/
def tokenize (cs : List Char) : List Tok :=
  cs.foldr pushChar []

/-- Render a token list back to the template text it came from. -/
def renderToks : List Tok → List Char
  | [] => []
  | Tok.lit c :: ts => c :: renderToks ts
  | Tok.param n :: ts => '{' :: (n.data ++ '}' :: renderToks ts)

/-- Placeholder names of a token list, in template order; this is the
`paramNames` array accumulated by the constructor's replacement callback. -/
def paramNamesOf : List Tok → List String
  | [] => []
  | Tok.lit _ :: ts => paramNamesOf ts
  | Tok.param n :: ts => n :: paramNamesOf ts

/-- The characters of `PARAM_REGEX_STRING`, the capturing group substituted
for every placeholder. -/
def paramRegex : List Char := "([^/]+)".data

/-- The pattern text built by the constructor (before anchoring): literal
characters pass through unescaped and each placeholder becomes the group
`([^/]+)`. -/
def regexStringOf : List Tok → List Char
  | [] => []
  | Tok.lit c :: ts => c :: regexStringOf ts
  | Tok.param _ :: ts => paramRegex ++ regexStringOf ts

/-- Syntactic well-formedness of the fragment of JavaScript regular
expression syntax that generated patterns can contain: groups must balance,
character classes must be terminated, quantifiers need a preceding atom and
a trailing backslash is ill-formed.  `new RegExp` throws a `SyntaxError`
exactly when this check fails on the patterns exercised in this
development.  The first boolean argument tracks whether scanning is inside a
character class, the second whether a quantifier may appear. -/
def reWF : Nat → Bool → Bool → List Char → Bool
  | d, inCls, _, [] => !inCls && d == 0
  | _, true, _, ['\\'] => false
  | d, true, _, '\\' :: _ :: cs => reWF d true false cs
  | d, true, _, c :: cs =>
    if c = ']' then reWF d false true cs else reWF d true false cs
  | _, false, _, ['\\'] => false
  | d, false, _, '\\' :: _ :: cs => reWF d false true cs
  | d, false, q, c :: cs =>
    if c = '(' then reWF (d + 1) false false cs
    else if c = ')' then
      match d with
      | 0 => false
      | d' + 1 => reWF d' false true cs
    else if c = '[' then reWF d true false cs
    else if c = '*' ∨ c = '+' ∨ c = '?' then q && reWF d false false cs
    else if c = '|' ∨ c = '^' ∨ c = '$' then reWF d false false cs
    else reWF d false true cs

/-- Well-formedness of a complete pattern string. -/
def regexOK (pattern : List Char) : Bool := reWF 0 false false pattern

/-- The `Route` object: the verbatim template, the placeholder names in
template order, the static flag, the anchored pattern text handed to
`new RegExp`, and the token view of that pattern used by the matcher.  All
fields are computed once at construction and never mutated. -/
structure Route where
  format : String
  paramNames : List String
  isStatic : Bool
  regex : List Char
  toks : List Tok
deriving DecidableEq, Repr

/-- The constructor.  It tokenises the template, collects the placeholder
names, anchors the generated pattern, and fails (models the `SyntaxError`
thrown by `new RegExp`) when the pattern is ill-formed. -/
def Route.mk? (format : String) : Option Route :=
  let toks := tokenize format.data
  let names := paramNamesOf toks
  let pattern := '^' :: (regexStringOf toks ++ ['$'])
  if regexOK pattern then some ⟨format, names, names.isEmpty, pattern, toks⟩
  else none

/-- Line terminators, which the JavaScript dot does not match. -/
def isLineTerm (c : Char) : Bool :=
  c == '\n' || c == '\r' || c == Char.ofNat 8232 || c == Char.ofNat 8233

/-- Semantics of one literal pattern character against one path character:
the unescaped dot is the any-character wildcard, every other modelled
literal matches itself. -/
def litMatch (p x : Char) : Bool :=
  if p = '.' then !isLineTerm x else p == x

/-- The list `n, n-1, ..., 1`: the candidate lengths a greedy group tries,
longest first. -/
def downFrom : Nat → List Nat
  | 0 => []
  | n + 1 => (n + 1) :: downFrom n

/-- First successful result of `f` along a list of candidates; models the
backtracking order of the regular expression engine. -/
def firstSome {α : Type} (f : Nat → Option α) : List Nat → Option α
  | [] => none
  | k :: ks =>
    match f k with
    | some a => some a
    | none => firstSome f ks

/-- Anchored matching of a token list against a path, returning the list of
captured substrings on success.  A literal consumes one matching character;
a placeholder group greedily consumes the longest possible non-empty run of
non-separator characters, backtracking to shorter runs, exactly as the
generated pattern `([^/]+)` behaves under a JavaScript engine. -/
def matchToks : List Tok → List Char → Option (List (List Char))
  | [], [] => some []
  | [], _ :: _ => none
  | Tok.lit _ :: _, [] => none
  | Tok.lit p :: ts, x :: xs => if litMatch p x then matchToks ts xs else none
  | Tok.param _ :: ts, cs =>
    firstSome
      (fun k => (matchToks ts (cs.drop k)).map (fun caps => cs.take k :: caps))
      (downFrom (cs.takeWhile (fun c => !(c == '/'))).length)

/-- The `match` method: `this.regex.test(path)`. -/
def Route.matchPath (r : Route) (path : String) : Bool :=
  (matchToks r.toks path.data).isSome

/-- Property lookup on the object model of a parameter mapping: the value at
the unique entry with the given key, if any. -/
def getParam (ps : List (String × String)) (k : String) : Option String :=
  (ps.find? (fun p => p.1 == k)).map (fun p => p.2)

/-- Property assignment on the object model: overwrite the entry with the
given key in place, or append a fresh entry. -/
def setParam (ps : List (String × String)) (k : String) (v : String) :
    List (String × String) :=
  if ps.any (fun p => p.1 == k) then
    ps.map (fun p => if p.1 == k then (k, v) else p)
  else ps ++ [(k, v)]

/-- The object built by `parse`'s loop `params[paramNames[i-1]] = match[i]`:
names and captures are paired positionally and assigned in order, so a
repeated name ends up holding the capture of its last occurrence. -/
def buildParams (names : List String) (vals : List String) :
    List (String × String) :=
  (names.zip vals).foldl (fun ps nv => setParam ps nv.1 nv.2) []

/-- The `parse` method: `null` when the path does not match, otherwise the
parameter object assembled from the capture groups. -/
def Route.parse (r : Route) (path : String) : Option (List (String × String)) :=
  (matchToks r.toks path.data).map
    (fun caps => buildParams r.paramNames (caps.map String.mk))

/-- Value of the last entry of an association list with the given key; used
to state the last-occurrence-wins behaviour of repeated placeholder names. -/
def lastAssoc (l : List (String × String)) (k : String) : Option String :=
  (l.reverse.find? (fun p => p.1 == k)).map (fun p => p.2)

/-- The three error shapes `compile` can throw, each carrying the data its
message interpolates. -/
inductive CompileError where
  | unexpectedParameters (format : String)
  | missingParameters (format : String)
  | missingNamedParameter (name : String) (format : String)
deriving DecidableEq, Repr

instance {ε α : Type} [DecidableEq ε] [DecidableEq α] : DecidableEq (Except ε α) :=
  fun a b =>
    match a, b with
    | Except.ok x, Except.ok y =>
      if h : x = y then isTrue (by rw [h]) else isFalse (by intro hc; cases hc; exact h rfl)
    | Except.error x, Except.error y =>
      if h : x = y then isTrue (by rw [h]) else isFalse (by intro hc; cases hc; exact h rfl)
    | Except.ok _, Except.error _ => isFalse (by intro hc; cases hc)
    | Except.error _, Except.ok _ => isFalse (by intro hc; cases hc)

/-- The substitution pass of `compile`: walk the template's tokens in order,
pass literals through, and replace each placeholder by its value from the
mapping, throwing `missingNamedParameter` at the first placeholder whose
value is absent or falsy (the empty string). -/
def compileWith (fmt : String) (ps : List (String × String)) :
    List Tok → Except CompileError (List Char)
  | [] => Except.ok []
  | Tok.lit c :: ts => (compileWith fmt ps ts).map (fun out => c :: out)
  | Tok.param n :: ts =>
    match getParam ps n with
    | none => Except.error (CompileError.missingNamedParameter n fmt)
    | some v =>
      if v = "" then Except.error (CompileError.missingNamedParameter n fmt)
      else (compileWith fmt ps ts).map (fun out => v.data ++ out)

/-- The `compile` method.  `none` models calling it with no argument
(`undefined`); `some ps` models passing an object, which is always truthy in
JavaScript — in particular an empty object counts as present. -/
def Route.compile (r : Route) (params : Option (List (String × String))) :
    Except CompileError String :=
  if r.isStatic then
    match params with
    | some _ => Except.error (CompileError.unexpectedParameters r.format)
    | none => Except.ok r.format
  else
    match params with
    | none => Except.error (CompileError.missingParameters r.format)
    | some ps => (compileWith r.format ps r.toks).map String.mk

/-- Declarative matching relation, transcribing the specification's wording:
the whole path is consumed, every literal character is matched verbatim and
every placeholder consumes one or more characters none of which is the
separator; the third argument records the captured substrings in template
order. -/
inductive MatchesW : List Tok → List Char → List (List Char) → Prop where
  | nil : MatchesW [] [] []
  | lit (c : Char) {ts : List Tok} {cs : List Char} {caps : List (List Char)} :
      MatchesW ts cs caps → MatchesW (Tok.lit c :: ts) (c :: cs) caps
  | param (n : String) {v : List Char} {ts : List Tok} {cs : List Char}
      {caps : List (List Char)} :
      v ≠ [] → (∀ c ∈ v, c ≠ '/') → MatchesW ts cs caps →
      MatchesW (Tok.param n :: ts) (v ++ cs) (v :: caps)

/-- A character with no special meaning in a regular expression pattern. -/
def plainChar (c : Char) : Bool :=
  !(c == '\\' || c == '^' || c == '$' || c == '.' || c == '*' || c == '+' ||
    c == '?' || c == '(' || c == ')' || c == '[' || c == ']' || c == '|')

/-- All literal characters of the token list are plain, so the generated
pattern matches them verbatim. -/
def plainToks : List Tok → Bool
  | [] => true
  | Tok.lit c :: ts => plainChar c && plainToks ts
  | Tok.param _ :: ts => plainToks ts

/-- Every placeholder is immediately followed by a literal separator or ends
the template; under this shape a match decomposes a path uniquely. -/
def sepOK : List Tok → Bool
  | [] => true
  | Tok.lit _ :: ts => sepOK ts
  | Tok.param _ :: [] => true
  | Tok.param _ :: Tok.lit c :: ts => c == '/' && sepOK (Tok.lit c :: ts)
  | Tok.param _ :: Tok.param _ :: _ => false

/-- The mapping assigns every given name a non-empty value containing no
separator. -/
def goodVals (ps : List (String × String)) : List String → Bool
  | [] => true
  | n :: names =>
    (match getParam ps n with
     | none => false
     | some v => !(v == "") && v.data.all (fun c => !(c == '/'))) && goodVals ps names

/-- Fallback used to name the routes of concrete examples. -/
def routeOr (o : Option Route) : Route := o.getD ⟨"", [], true, ['^', '$'], []⟩

/-- The static route of the specification's first concrete scenario. -/
def fooRoute : Route := routeOr (Route.mk? "/foo")

/-- The one-placeholder route of the second concrete scenario. -/
def fooBarRoute : Route := routeOr (Route.mk? "/foo/{bar}")

/-- A static route whose literal text contains an unescaped dot. -/
def dotRoute : Route := routeOr (Route.mk? "/a.")

/-- A route with two adjacent placeholders. -/
def abRoute : Route := routeOr (Route.mk? "{a}{b}")

/-- Group-level view of a generated pattern, widening the modelled regular
expression fragment: plain (or dot) literal characters, literal capturing
groups — parentheses around literal text, which the engine treats as a
capture group of their own — and the `([^/]+)` groups of placeholders. -/
inductive GTok where
  | lit (c : Char)
  | grp (inner : List Char)
  | param
deriving DecidableEq, Repr

/-- Take the maximal leading run of plain-or-dot literal characters of a
group-token list; used to recognise a literal capturing group when an
opening parenthesis is prepended. -/
def splitGRun : List GTok → List Char × List GTok
  | GTok.lit c :: gs =>
    if (plainChar c || c == '.') = true then
      let p := splitGRun gs
      (c :: p.1, p.2)
    else ([], GTok.lit c :: gs)
  | gs => ([], gs)

/-- Prepend one template token to an already grouped suffix.  An opening
parenthesis immediately followed by a literal run and a closing parenthesis
forms a literal capturing group; everything else is kept as is. -/
def pushG (t : Tok) (gs : List GTok) : List GTok :=
  match t with
  | Tok.param _ => GTok.param :: gs
  | Tok.lit c =>
    if c = '(' then
      match splitGRun gs with
      | (inner, GTok.lit d :: rest) =>
        if d = ')' then GTok.grp inner :: rest
        else GTok.lit c :: gs
      | _ => GTok.lit c :: gs
    else GTok.lit c :: gs

/-- A group token lies in the modelled fragment when its literal characters
are plain or the dot. -/
def gtokOK : GTok → Bool
  | GTok.lit c => plainChar c || c == '.'
  | GTok.grp _ => true
  | GTok.param => true

/-- Group view of a token list: literal parenthesised runs become literal
capturing groups; the result is `none` when a stray metacharacter (an
unpaired parenthesis, a bracket, a quantifier, a placeholder nested in a
group, ...) puts the pattern outside the modelled fragment. -/
def toGToks (ts : List Tok) : Option (List GTok) :=
  let gs := ts.foldr pushG []
  if gs.all gtokOK then some gs else none

/-- Match a run of literal pattern characters against the front of a path,
returning the consumed characters (the text a literal group captures) and
the remainder. -/
def matchLits : List Char → List Char → Option (List Char × List Char)
  | [], cs => some ([], cs)
  | _ :: _, [] => none
  | p :: ps, x :: xs =>
    if litMatch p x then (matchLits ps xs).map (fun pr => (x :: pr.1, pr.2))
    else none

/-- Anchored matching of the group view of a pattern, returning all capture
groups in order — the captures of literal groups included, exactly as the
engine numbers them. -/
def matchGToks : List GTok → List Char → Option (List (List Char))
  | [], [] => some []
  | [], _ :: _ => none
  | GTok.lit _ :: _, [] => none
  | GTok.lit p :: gs, x :: xs => if litMatch p x then matchGToks gs xs else none
  | GTok.grp inner :: gs, cs =>
    match matchLits inner cs with
    | some pr => (matchGToks gs pr.2).map (fun caps => pr.1 :: caps)
    | none => none
  | GTok.param :: gs, cs =>
    firstSome
      (fun k => (matchGToks gs (cs.drop k)).map (fun caps => cs.take k :: caps))
      (downFrom (cs.takeWhile (fun c => !(c == '/'))).length)

/-- The key list the parse loop actually indexes: `paramNames[i-1]` for each
capture, which past the end of the array is `undefined` — coerced to the
property key "undefined" by the assignment. -/
def padNames (names : List String) (k : Nat) : List String :=
  names ++ List.replicate (k - names.length) "undefined"

/-- The object built by the parse loop when the capture list may be longer
than `paramNames`: each capture i is assigned to `paramNames[i]`, or to the
key "undefined" when no such name exists, later assignments overwriting
earlier ones. -/
def buildParamsJS (names : List String) (vals : List String) :
    List (String × String) :=
  ((padNames names vals.length).zip vals).foldl
    (fun ps nv => setParam ps nv.1 nv.2) []

/-- The `parse` method modelled over the widened fragment that includes
literal capturing groups.  On patterns inside the widened fragment it pairs
every capture group — literal groups included — with the positionally
corresponding placeholder name, falling back to the key "undefined" beyond
the names, exactly as the source loop does; outside the fragment it defers
to the narrow model, with which it provably coincides on plain-literal
templates (`parseG_eq_parse`). -/
def Route.parseG (r : Route) (path : String) : Option (List (String × String)) :=
  match toGToks r.toks with
  | some gs =>
    (matchGToks gs path.data).map
      (fun caps => buildParamsJS r.paramNames (caps.map String.mk))
  | none => r.parse path

/-- The injection of the narrow token view into the group view, total on
templates whose literals are plain. -/
def convTok : Tok → GTok
  | Tok.lit c => GTok.lit c
  | Tok.param _ => GTok.param

/-- A static route whose literal text contains a parenthesised run: the
generated pattern `^/(x)$` holds a capture group that corresponds to no
placeholder name. -/
def parenRoute : Route := routeOr (Route.mk? "/(x)")

/-- Field view of a successfully constructed route. -/
theorem mkQ_fields {fmt : String} {r : Route} (h : Route.mk? fmt = some r) :
    r.format = fmt ∧ r.toks = tokenize fmt.data ∧
    r.paramNames = paramNamesOf (tokenize fmt.data) ∧
    r.isStatic = (paramNamesOf (tokenize fmt.data)).isEmpty ∧
    r.regex = '^' :: (regexStringOf (tokenize fmt.data) ++ ['$']) := by
  simp only [Route.mk?] at h
  split at h
  · injection h with h'
    subst h'
    exact ⟨rfl, rfl, rfl, rfl, rfl⟩
  · cases h

/-- A successful search along the candidate list comes from one of the
candidates. -/
theorem firstSome_eq_some {α : Type} {f : Nat → Option α} {l : List Nat} {a : α}
    (h : firstSome f l = some a) : ∃ k ∈ l, f k = some a := by
  induction l with
  | nil => simp [firstSome] at h
  | cons k ks ih =>
    simp only [firstSome] at h
    cases hf : f k with
    | some b =>
      rw [hf] at h
      exact ⟨k, List.mem_cons_self k ks, by rw [hf]; exact h⟩
    | none =>
      rw [hf] at h
      obtain ⟨k', hk', hfk'⟩ := ih h
      exact ⟨k', List.mem_cons_of_mem k hk', hfk'⟩

/-- If some candidate succeeds, the search succeeds. -/
theorem firstSome_isSome {α : Type} {f : Nat → Option α} {l : List Nat}
    (h : ∃ k ∈ l, (f k).isSome = true) : (firstSome f l).isSome = true := by
  induction l with
  | nil => simp at h
  | cons k ks ih =>
    simp only [firstSome]
    cases hf : f k with
    | some a => simp
    | none =>
      simp only []
      apply ih
      obtain ⟨k', hk', hfk'⟩ := h
      rcases List.mem_cons.mp hk' with rfl | hmem
      · rw [hf] at hfk'; simp at hfk'
      · exact ⟨k', hmem, hfk'⟩

/-- If the first candidate succeeds, the search returns its result. -/
theorem firstSome_head {α : Type} {f : Nat → Option α} {k : Nat} {ks : List Nat}
    {a : α} (h : f k = some a) : firstSome f (k :: ks) = some a := by
  simp only [firstSome]
  rw [h]

/-- Membership in the descending candidate list. -/
theorem mem_downFrom {k n : Nat} : k ∈ downFrom n ↔ 1 ≤ k ∧ k ≤ n := by
  induction n with
  | zero =>
    simp only [downFrom, List.not_mem_nil, false_iff]
    omega
  | succ n ih =>
    simp only [downFrom, List.mem_cons, ih]
    omega

/-- Characters of a prefix no longer than the satisfying run satisfy the
predicate. -/
theorem take_pred {p : Char → Bool} : ∀ (cs : List Char) (k : Nat),
    k ≤ (cs.takeWhile p).length → ∀ c ∈ cs.take k, p c = true := by
  intro cs
  induction cs with
  | nil =>
    intro k _ c hc
    simp at hc
  | cons x xs ih =>
    intro k hk c hc
    by_cases hx : p x = true
    · cases k with
      | zero => simp at hc
      | succ k =>
        simp only [List.takeWhile_cons, hx, if_true, List.length_cons,
          Nat.succ_le_succ_iff] at hk
        simp only [List.take_succ_cons, List.mem_cons] at hc
        rcases hc with rfl | hc
        · exact hx
        · exact ih k hk c hc
    · simp only [List.takeWhile_cons, hx] at hk
      simp only [Bool.false_eq_true, if_false, List.length_nil, Nat.le_zero] at hk
      subst hk
      simp at hc

/-- The run of characters satisfying a predicate is no longer than the
list. -/
theorem takeWhile_len_le {p : Char → Bool} : ∀ cs : List Char,
    (cs.takeWhile p).length ≤ cs.length := by
  intro cs
  induction cs with
  | nil => simp
  | cons x xs ih =>
    by_cases hx : p x = true
    · simpa [List.takeWhile_cons, hx] using Nat.succ_le_succ ih
    · simp [List.takeWhile_cons, hx]

/-- A plain literal pattern character only matches itself. -/
theorem litMatch_plain {p x : Char} (hp : plainChar p = true)
    (h : litMatch p x = true) : x = p := by
  have hdot : p ≠ '.' := by
    intro e
    subst e
    simp [plainChar] at hp
  simp only [litMatch, if_neg hdot] at h
  exact (beq_iff_eq.mp h).symm

/-- Every literal pattern character matches its own text. -/
theorem litMatch_self (c : Char) : litMatch c c = true := by
  by_cases h : c = '.'
  · subst h
    decide
  · simp [litMatch, h]

/-- Soundness of the matcher: a successful match of a template with plain
literals decomposes the path as the declarative relation describes, with the
returned captures. -/
theorem matchToks_sound : ∀ (ts : List Tok) (cs : List Char) (caps : List (List Char)),
    plainToks ts = true → matchToks ts cs = some caps → MatchesW ts cs caps := by
  intro ts
  induction ts with
  | nil =>
    intro cs caps _ h
    cases cs with
    | nil =>
      simp only [matchToks, Option.some.injEq] at h
      subst h
      exact MatchesW.nil
    | cons x xs => simp [matchToks] at h
  | cons t ts ih =>
    intro cs caps hpl h
    cases t with
    | lit p =>
      have hpl' : plainChar p = true ∧ plainToks ts = true := by
        simpa [plainToks, Bool.and_eq_true] using hpl
      cases cs with
      | nil => simp [matchToks] at h
      | cons x xs =>
        simp only [matchToks] at h
        by_cases hm : litMatch p x = true
        · rw [if_pos hm] at h
          obtain rfl := litMatch_plain hpl'.1 hm
          exact MatchesW.lit x (ih xs caps hpl'.2 h)
        · rw [if_neg hm] at h
          cases h
    | param n =>
      have hpl' : plainToks ts = true := by simpa [plainToks] using hpl
      simp only [matchToks] at h
      obtain ⟨k, hk, hfk⟩ := firstSome_eq_some h
      rw [mem_downFrom] at hk
      rw [Option.map_eq_some'] at hfk
      obtain ⟨caps', hmc, hcaps⟩ := hfk
      have hlen : k ≤ cs.length := le_trans hk.2 (takeWhile_len_le cs)
      have hne : cs.take k ≠ [] := by
        have hl : (cs.take k).length = k := by
          rw [List.length_take]
          omega
        intro e
        rw [e] at hl
        simp at hl
        omega
      have hns : ∀ c ∈ cs.take k, c ≠ '/' := by
        intro c hc
        have := take_pred cs k hk.2 c hc
        simpa using this
      have hstep := MatchesW.param n hne hns (ih _ _ hpl' hmc)
      rw [List.take_append_drop] at hstep
      rw [hcaps] at hstep
      exact hstep

/-- Completeness of the matcher: any decomposition in the declarative
relation is found by the greedy engine. -/
theorem matchToks_complete {ts : List Tok} {cs : List Char} {caps : List (List Char)}
    (h : MatchesW ts cs caps) : (matchToks ts cs).isSome = true := by
  induction h with
  | nil => simp [matchToks]
  | lit c hm ih =>
    simp only [matchToks]
    rw [if_pos (litMatch_self c)]
    exact ih
  | @param n v ts cs caps hne hns hm ih =>
    simp only [matchToks]
    apply firstSome_isSome
    refine ⟨v.length, ?_, ?_⟩
    · rw [mem_downFrom]
      constructor
      · have : 0 < v.length := List.length_pos.mpr hne
        omega
      · have hv : ∀ a ∈ v, (!(a == '/')) = true := by
          intro a ha
          simpa using hns a ha
        rw [List.takeWhile_append_of_pos hv]
        simp
    · rw [List.drop_left]
      obtain ⟨caps', hc⟩ := Option.isSome_iff_exists.mp ih
      rw [hc]
      simp

/-- A successful match returns one capture per placeholder. -/
theorem matchToks_caps_len : ∀ (ts : List Tok) (cs : List Char) (caps : List (List Char)),
    matchToks ts cs = some caps → caps.length = (paramNamesOf ts).length := by
  intro ts
  induction ts with
  | nil =>
    intro cs caps h
    cases cs with
    | nil =>
      simp only [matchToks, Option.some.injEq] at h
      subst h
      rfl
    | cons x xs => simp [matchToks] at h
  | cons t ts ih =>
    intro cs caps h
    cases t with
    | lit p =>
      cases cs with
      | nil => simp [matchToks] at h
      | cons x xs =>
        simp only [matchToks] at h
        by_cases hm : litMatch p x = true
        · rw [if_pos hm] at h
          simpa [paramNamesOf] using ih xs caps h
        · rw [if_neg hm] at h
          cases h
    | param n =>
      simp only [matchToks] at h
      obtain ⟨k, _, hfk⟩ := firstSome_eq_some h
      rw [Option.map_eq_some'] at hfk
      obtain ⟨caps', hmc, hcaps⟩ := hfk
      subst hcaps
      simp [paramNamesOf, ih _ _ hmc]

/-- Captured substrings of a declarative match are non-empty. -/
theorem matchesW_caps_ne {ts : List Tok} {cs : List Char} {caps : List (List Char)}
    (h : MatchesW ts cs caps) : ∀ v ∈ caps, v ≠ [] := by
  induction h with
  | nil =>
    intro v hv
    cases hv
  | lit c hm ih => exact ih
  | @param n v ts cs caps hne hns hm ih =>
    intro w hw
    rcases List.mem_cons.mp hw with rfl | hw'
    · exact hne
    · exact ih w hw'

/-- Lookup on a cons cell. -/
theorem getParam_cons (p : String × String) (ps : List (String × String)) (k : String) :
    getParam (p :: ps) k = if p.1 == k then some p.2 else getParam ps k := by
  unfold getParam
  cases h : p.1 == k with
  | true => simp [List.find?, h]
  | false => simp [List.find?, h]

/-- Overwriting entries of one key leaves lookups of other keys alone. -/
theorem getParam_map_upd_ne (ps : List (String × String)) (k v k' : String)
    (hne : k' ≠ k) :
    getParam (ps.map (fun p => if p.1 == k then (k, v) else p)) k' = getParam ps k' := by
  induction ps with
  | nil => rfl
  | cons p ps ih =>
    simp only [List.map_cons]
    cases hpk : p.1 == k with
    | true =>
      have hp1 : p.1 = k := beq_iff_eq.mp hpk
      have h1 : (k == k') = false := beq_eq_false_iff_ne.mpr (fun e => hne e.symm)
      simp only [hpk, if_true, getParam_cons, h1, hp1]
      simp only [Bool.false_eq_true, if_false]
      exact ih
    | false =>
      simp only [hpk, Bool.false_eq_true, if_false, getParam_cons]
      rw [ih]

/-- Overwriting entries of a present key makes its lookup the new value. -/
theorem getParam_map_upd_eq (ps : List (String × String)) (k v : String)
    (hany : ps.any (fun p => p.1 == k) = true) :
    getParam (ps.map (fun p => if p.1 == k then (k, v) else p)) k = some v := by
  induction ps with
  | nil => simp at hany
  | cons p ps ih =>
    simp only [List.map_cons]
    cases hpk : p.1 == k with
    | true =>
      simp [hpk, getParam_cons]
    | false =>
      simp only [hpk, Bool.false_eq_true, if_false, getParam_cons]
      simp only [List.any_cons, hpk, Bool.false_or] at hany
      exact ih hany

/-- Lookup after a property assignment: the assigned key now has the new
value, all other keys are untouched. -/
theorem getParam_setParam (ps : List (String × String)) (k v k' : String) :
    getParam (setParam ps k v) k' = if k' = k then some v else getParam ps k' := by
  unfold setParam
  by_cases hany : ps.any (fun p => p.1 == k) = true
  · rw [if_pos hany]
    by_cases hk : k' = k
    · subst hk
      rw [if_pos rfl]
      exact getParam_map_upd_eq ps k' v hany
    · rw [if_neg hk]
      exact getParam_map_upd_ne ps k v k' hk
  · rw [if_neg hany]
    have hnone : ps.find? (fun p => p.1 == k) = none := by
      rw [List.find?_eq_none]
      intro x hx hpx
      exact hany (List.any_eq_true.mpr ⟨x, hx, hpx⟩)
    by_cases hk : k' = k
    · subst hk
      rw [if_pos rfl]
      unfold getParam
      rw [List.find?_append, hnone]
      simp
    · rw [if_neg hk]
      unfold getParam
      rw [List.find?_append]
      have h1 : [(k, v)].find? (fun p => p.1 == k') = none := by
        rw [List.find?_eq_none]
        intro x hx hpx
        simp only [List.mem_singleton] at hx
        subst hx
        exact hk (beq_iff_eq.mp hpx).symm
      rw [h1, Option.or_none]

/-- In-place overwrite preserves the key list. -/
theorem keys_map_upd (ps : List (String × String)) (k v : String) :
    (ps.map (fun p => if p.1 == k then (k, v) else p)).map Prod.fst = ps.map Prod.fst := by
  induction ps with
  | nil => rfl
  | cons p ps ih =>
    simp only [List.map_cons]
    cases hpk : p.1 == k with
    | true =>
      have hp1 : p.1 = k := beq_iff_eq.mp hpk
      have hred : (if true = true then ((k, v) : String × String) else p) = (k, v) := rfl
      rw [hred, ih, hp1]
    | false =>
      have hred : (if false = true then ((k, v) : String × String) else p) = p := rfl
      rw [hred, ih]

/-- Property assignment preserves distinctness of keys. -/
theorem keys_setParam_nodup {ps : List (String × String)} {k v : String}
    (h : (ps.map Prod.fst).Nodup) : ((setParam ps k v).map Prod.fst).Nodup := by
  unfold setParam
  by_cases hany : ps.any (fun p => p.1 == k) = true
  · rw [if_pos hany, keys_map_upd]
    exact h
  · rw [if_neg hany]
    have hk : k ∉ ps.map Prod.fst := by
      intro hmem
      obtain ⟨p, hp, hfst⟩ := List.mem_map.mp hmem
      exact hany (List.any_eq_true.mpr ⟨p, hp, by simp [hfst]⟩)
    rw [List.map_append]
    simp only [List.map_cons, List.map_nil]
    rw [List.nodup_append]
    exact ⟨h, List.nodup_singleton k, by simpa [List.disjoint_singleton] using hk⟩

/-- Keys after a property assignment. -/
theorem mem_keys_setParam {ps : List (String × String)} {k v n : String} :
    n ∈ (setParam ps k v).map Prod.fst ↔ n = k ∨ n ∈ ps.map Prod.fst := by
  unfold setParam
  by_cases hany : ps.any (fun p => p.1 == k) = true
  · rw [if_pos hany, keys_map_upd]
    constructor
    · exact Or.inr
    · rintro (rfl | h)
      · obtain ⟨p, hp, hpk⟩ := List.any_eq_true.mp hany
        exact List.mem_map.mpr ⟨p, hp, beq_iff_eq.mp hpk⟩
      · exact h
  · rw [if_neg hany, List.map_append]
    simp only [List.map_cons, List.map_nil, List.mem_append, List.mem_singleton]
    tauto

/-- Mapping distributes over the option fallback. -/
theorem optionMap_or {α β : Type} (f : α → β) (x y : Option α) :
    (x.or y).map f = (x.map f).or (y.map f) := by
  cases x <;> simp

/-- Peeling one entry off the last-occurrence lookup. -/
theorem lastAssoc_cons (nv : String × String) (rest : List (String × String)) (k : String) :
    lastAssoc (nv :: rest) k =
      (lastAssoc rest k).or (if nv.1 == k then some nv.2 else none) := by
  unfold lastAssoc
  rw [List.reverse_cons, List.find?_append, optionMap_or]
  congr 1
  rw [List.find?_singleton]
  cases h : nv.1 == k with
  | true => simp
  | false => simp

/-- Folding property assignments over a list of entries: a key ends up at
the value of its last entry, or keeps its value from the accumulator. -/
theorem getParam_fold (l : List (String × String)) :
    ∀ (acc : List (String × String)) (k : String),
      getParam (l.foldl (fun ps nv => setParam ps nv.1 nv.2) acc) k =
        (lastAssoc l k).or (getParam acc k) := by
  induction l with
  | nil =>
    intro acc k
    simp [lastAssoc]
  | cons nv rest ih =>
    intro acc k
    simp only [List.foldl_cons]
    rw [ih, getParam_setParam, lastAssoc_cons, Option.or_assoc]
    congr 1
    by_cases h : k = nv.1
    · subst h
      simp
    · have hb : (nv.1 == k) = false := beq_eq_false_iff_ne.mpr (Ne.symm h)
      simp [h, hb]

/-- Lookup in the object `parse` builds is the last-occurrence lookup over
the name/capture pairs. -/
theorem getParam_buildParams (names : List String) (vals : List String) (k : String) :
    getParam (buildParams names vals) k = lastAssoc (names.zip vals) k := by
  unfold buildParams
  rw [getParam_fold]
  simp [getParam]

/-- Folding property assignments keeps keys distinct. -/
theorem keys_fold_nodup (l : List (String × String)) :
    ∀ acc : List (String × String), (acc.map Prod.fst).Nodup →
      ((l.foldl (fun ps nv => setParam ps nv.1 nv.2) acc).map Prod.fst).Nodup := by
  induction l with
  | nil =>
    intro acc h
    exact h
  | cons nv rest ih =>
    intro acc h
    simp only [List.foldl_cons]
    exact ih _ (keys_setParam_nodup h)

/-- Keys after folding property assignments. -/
theorem mem_keys_fold (l : List (String × String)) :
    ∀ (acc : List (String × String)) (n : String),
      n ∈ (l.foldl (fun ps nv => setParam ps nv.1 nv.2) acc).map Prod.fst ↔
        n ∈ acc.map Prod.fst ∨ n ∈ l.map Prod.fst := by
  induction l with
  | nil =>
    intro acc n
    simp
  | cons nv rest ih =>
    intro acc n
    simp only [List.foldl_cons, List.map_cons, List.mem_cons]
    rw [ih, mem_keys_setParam]
    tauto

/-- The object `parse` builds has distinct keys. -/
theorem keys_buildParams_nodup (names : List String) (vals : List String) :
    ((buildParams names vals).map Prod.fst).Nodup :=
  keys_fold_nodup _ [] (by simp)

/-- The keys of the object `parse` builds are the zipped names. -/
theorem mem_keys_buildParams (names : List String) (vals : List String) (n : String) :
    n ∈ (buildParams names vals).map Prod.fst ↔ n ∈ (names.zip vals).map Prod.fst := by
  unfold buildParams
  rw [mem_keys_fold]
  simp

/-- A lookup misses exactly when the key is absent. -/
theorem getParam_eq_none (ps : List (String × String)) (k : String) :
    getParam ps k = none ↔ k ∉ ps.map Prod.fst := by
  unfold getParam
  rw [Option.map_eq_none', List.find?_eq_none]
  constructor
  · intro h hmem
    obtain ⟨p, hp, hfst⟩ := List.mem_map.mp hmem
    exact h p hp (by simp [hfst])
  · intro h p hp hpk
    exact h (List.mem_map.mpr ⟨p, hp, beq_iff_eq.mp hpk⟩)

/-- The element a search returns satisfies the predicate. -/
theorem findQ_pred {l : List (String × String)} {pr : String × String → Bool}
    {q : String × String} (h : l.find? pr = some q) : pr q = true :=
  List.find?_some h

/-- If every entry of a key carries the same value, the last-occurrence
lookup returns that value whenever the key is present. -/
theorem lastAssoc_const {l : List (String × String)} {n w : String}
    (hall : ∀ p ∈ l, p.1 = n → p.2 = w) (hmem : n ∈ l.map Prod.fst) :
    lastAssoc l n = some w := by
  unfold lastAssoc
  obtain ⟨p, hp, hfst⟩ := List.mem_map.mp hmem
  have hex : ∃ x, x ∈ l.reverse ∧ (x.1 == n) = true :=
    ⟨p, List.mem_reverse.mpr hp, by simp [hfst]⟩
  obtain ⟨q, hq⟩ := Option.isSome_iff_exists.mp (List.find?_isSome.mpr hex)
  rw [hq]
  have hq1 : (q.1 == n) = true := findQ_pred hq
  have hqmem : q ∈ l := List.mem_reverse.mp (List.mem_of_find?_eq_some hq)
  simp [hall q hqmem (beq_iff_eq.mp hq1)]

/-- With distinct keys, entries are determined by their key. -/
theorem nodup_keys_inj {l : List (String × String)}
    (hnd : (l.map Prod.fst).Nodup) :
    ∀ p ∈ l, ∀ q ∈ l, p.1 = q.1 → p = q := by
  induction l with
  | nil =>
    intro p hp
    cases hp
  | cons r rest ih =>
    intro p hp q hq heq
    simp only [List.map_cons, List.nodup_cons] at hnd
    rcases List.mem_cons.mp hp with rfl | hp' <;> rcases List.mem_cons.mp hq with rfl | hq'
    · rfl
    · exact absurd (heq ▸ List.mem_map.mpr ⟨q, hq', rfl⟩) hnd.1
    · exact absurd (heq ▸ List.mem_map.mpr ⟨p, hp', rfl⟩) hnd.1
    · exact ih hnd.2 p hp' q hq' heq

/-- With distinct keys, the last-occurrence lookup of a present pair is its
value. -/
theorem lastAssoc_nodup {l : List (String × String)} {n v : String}
    (hnd : (l.map Prod.fst).Nodup) (hmem : (n, v) ∈ l) : lastAssoc l n = some v := by
  apply lastAssoc_const ?_ (List.mem_map.mpr ⟨(n, v), hmem, rfl⟩)
  intro p hp hpn
  have : p = (n, v) := nodup_keys_inj hnd p hp (n, v) hmem hpn
  rw [this]

/-- Keys of a zip are an initial segment of the first list. -/
theorem zip_keys_take : ∀ (names : List String) (vals : List String),
    (names.zip vals).map Prod.fst = names.take (names.zip vals).length := by
  intro names
  induction names with
  | nil =>
    intro vals
    simp
  | cons nm names ih =>
    intro vals
    cases vals with
    | nil => simp
    | cons v vs => simp [List.zip_cons_cons, ih vs]

/-- With distinct names, looking a zipped pair up in the object `parse`
builds returns its capture. -/
theorem getParam_buildParams_nodup {names : List String} {vals : List String}
    {n v : String} (hnd : names.Nodup) (hmem : (n, v) ∈ names.zip vals) :
    getParam (buildParams names vals) n = some v := by
  rw [getParam_buildParams]
  apply lastAssoc_nodup ?_ hmem
  rw [zip_keys_take]
  exact (List.take_sublist _ _).nodup hnd

/-- A successful mapped exception comes from a successful computation. -/
theorem exceptMap_ok {ε α β : Type} {f : α → β} {e : Except ε α} {b : β}
    (h : e.map f = Except.ok b) : ∃ a, e = Except.ok a ∧ f a = b := by
  cases e with
  | error err => simp [Except.map] at h
  | ok a =>
    refine ⟨a, rfl, ?_⟩
    simpa [Except.map] using h

/-- A string is determined by its character data. -/
theorem stringMk_data (s : String) : String.mk s.data = s := rfl

/-- A non-empty string has non-empty character data. -/
theorem data_ne_nil {v : String} (h : v ≠ "") : v.data ≠ [] := by
  intro e
  apply h
  cases v with
  | mk d =>
    have : String.mk d = String.mk [] := congrArg String.mk e
    exact this

/-- Splitting a literal run decomposes the token list. -/
theorem splitRun_eq : ∀ ts : List Tok,
    (splitRun ts).1.map Tok.lit ++ (splitRun ts).2 = ts := by
  intro ts
  induction ts with
  | nil => rfl
  | cons t ts ih =>
    cases t with
    | param n => simp [splitRun]
    | lit c =>
      by_cases h : c ≠ '{' ∧ c ≠ '}'
      · simp only [splitRun, if_pos h, List.map_cons, List.cons_append]
        exact congrArg (Tok.lit c :: ·) ih
      · simp [splitRun, if_neg h]

/-- Rendering a literal run prepends its characters. -/
theorem renderToks_map_lit (run : List Char) (ts : List Tok) :
    renderToks (run.map Tok.lit ++ ts) = run ++ renderToks ts := by
  induction run with
  | nil => rfl
  | cons c run ih => simp [renderToks, ih]

/-- Tokenising one more character renders back to that character followed by
the rest. -/
theorem renderToks_pushChar (c : Char) (ts : List Tok) :
    renderToks (pushChar c ts) = c :: renderToks ts := by
  unfold pushChar
  by_cases hc : c = '{'
  · subst hc
    rw [if_pos rfl]
    rcases hsp : splitRun ts with ⟨run, rest⟩
    have hts : run.map Tok.lit ++ rest = ts := by
      have := splitRun_eq ts
      rw [hsp] at this
      exact this
    cases rest with
    | nil => simp [renderToks]
    | cons t rest' =>
      cases t with
      | param m => simp [renderToks]
      | lit d =>
        by_cases hd : d = '}' ∧ run ≠ []
        · simp only [if_pos hd]
          rw [← hts, renderToks_map_lit]
          simp [renderToks, hd.1]
        · simp only [if_neg hd]
          simp [renderToks]
  · rw [if_neg hc]
    simp [renderToks]

/-- Tokenisation is lossless: rendering the tokens gives the template
back. -/
theorem renderToks_tokenize : ∀ cs : List Char, renderToks (tokenize cs) = cs := by
  intro cs
  induction cs with
  | nil => rfl
  | cons c cs ih =>
    show renderToks (pushChar c (tokenize cs)) = c :: cs
    rw [renderToks_pushChar, ih]

/-- A template with no placeholders and plain literals matches exactly its
own text. -/
theorem matchToks_static : ∀ (ts : List Tok) (cs : List Char),
    paramNamesOf ts = [] → plainToks ts = true →
    ((matchToks ts cs).isSome = true ↔ cs = renderToks ts) := by
  intro ts
  induction ts with
  | nil =>
    intro cs _ _
    cases cs with
    | nil => simp [matchToks, renderToks]
    | cons x xs => simp [matchToks, renderToks]
  | cons t ts ih =>
    intro cs hpn hpl
    cases t with
    | param n => simp [paramNamesOf] at hpn
    | lit p =>
      have hpl' : plainChar p = true ∧ plainToks ts = true := by
        simpa [plainToks, Bool.and_eq_true] using hpl
      have hpn' : paramNamesOf ts = [] := by simpa [paramNamesOf] using hpn
      cases cs with
      | nil => simp [matchToks, renderToks]
      | cons x xs =>
        simp only [matchToks, renderToks]
        by_cases hm : litMatch p x = true
        · rw [if_pos hm]
          obtain rfl := litMatch_plain hpl'.1 hm
          rw [ih xs hpn' hpl'.2]
          simp [List.cons.injEq]
        · rw [if_neg hm]
          simp only [Option.isSome_none, Bool.false_eq_true, false_iff]
          intro e
          have hx : x = p := ((List.cons.injEq x xs p (renderToks ts)).mp e).1
          subst hx
          exact hm (litMatch_self x)

/-- Substitution renders exactly the matched path when every placeholder's
value is its capture. -/
theorem compileWith_ok {fmt : String} {ps : List (String × String)} :
    ∀ {ts : List Tok} {cs : List Char} {caps : List (List Char)},
      MatchesW ts cs caps →
      (∀ nv ∈ (paramNamesOf ts).zip caps, getParam ps nv.1 = some (String.mk nv.2)) →
      compileWith fmt ps ts = Except.ok cs := by
  intro ts cs caps h
  induction h with
  | nil =>
    intro _
    rfl
  | lit c hm ih =>
    intro hvals
    have hrec := ih (by simpa [paramNamesOf] using hvals)
    simp [compileWith, hrec, Except.map]
  | @param n v ts cs caps hne hns hm ih =>
    intro hvals
    have hhead : getParam ps n = some (String.mk v) := by
      apply hvals (n, v)
      simp [paramNamesOf, List.zip_cons_cons]
    have htail := ih (fun nv hnv => hvals nv (by
      simp only [paramNamesOf, List.zip_cons_cons, List.mem_cons]
      exact Or.inr hnv))
    have hvne : String.mk v ≠ "" := by
      intro e
      apply hne
      simpa using congrArg String.data e
    simp [compileWith, hhead, hvne, htail, Except.map]

/-- With an absent or falsy placeholder value present, substitution throws
the missing-named-parameter error of some such placeholder. -/
theorem compileWith_missing {fmt : String} {ps : List (String × String)} :
    ∀ ts : List Tok,
      (∃ n ∈ paramNamesOf ts, getParam ps n = none ∨ getParam ps n = some "") →
      ∃ n, (n ∈ paramNamesOf ts ∧ (getParam ps n = none ∨ getParam ps n = some "")) ∧
        compileWith fmt ps ts = Except.error (CompileError.missingNamedParameter n fmt) := by
  intro ts
  induction ts with
  | nil =>
    intro h
    simp [paramNamesOf] at h
  | cons t ts ih =>
    intro h
    cases t with
    | lit c =>
      have h' : ∃ n ∈ paramNamesOf ts, getParam ps n = none ∨ getParam ps n = some "" := by
        simpa [paramNamesOf] using h
      obtain ⟨n, hn, he⟩ := ih h'
      refine ⟨n, ?_, ?_⟩
      · simpa [paramNamesOf] using hn
      · simp [compileWith, he, Except.map]
    | param m =>
      cases hg : getParam ps m with
      | none =>
        refine ⟨m, ⟨by simp [paramNamesOf], Or.inl hg⟩, ?_⟩
        simp [compileWith, hg]
      | some v =>
        by_cases hv : v = ""
        · subst hv
          refine ⟨m, ⟨by simp [paramNamesOf], Or.inr hg⟩, ?_⟩
          simp [compileWith, hg]
        · have h' : ∃ n ∈ paramNamesOf ts, getParam ps n = none ∨ getParam ps n = some "" := by
            obtain ⟨n, hn, hne⟩ := h
            simp only [paramNamesOf, List.mem_cons] at hn
            rcases hn with rfl | hn'
            · exfalso
              rcases hne with h1 | h1 <;> rw [hg] at h1
              · cases h1
              · exact hv (Option.some.inj h1)
            · exact ⟨n, hn', hne⟩
          obtain ⟨n, hn, he⟩ := ih h'
          refine ⟨n, ⟨?_, hn.2⟩, ?_⟩
          · simp only [paramNamesOf, List.mem_cons]
            exact Or.inr hn.1
          · simp [compileWith, hg, hv, he, Except.map]

/-- With an empty mapping, substitution throws for the first placeholder. -/
theorem compileWith_empty {fmt : String} :
    ∀ (ts : List Tok) (n₀ : String) (rest : List String),
      paramNamesOf ts = n₀ :: rest →
      compileWith fmt [] ts = Except.error (CompileError.missingNamedParameter n₀ fmt) := by
  intro ts
  induction ts with
  | nil =>
    intro n₀ rest h
    simp [paramNamesOf] at h
  | cons t ts ih =>
    intro n₀ rest h
    cases t with
    | lit c =>
      simp only [paramNamesOf] at h
      simp [compileWith, ih n₀ rest h, Except.map]
    | param m =>
      simp only [paramNamesOf] at h
      injection h with h1 h2
      subst h1
      simp [compileWith, getParam]

/-- When the text after a placeholder's value starts with the separator (or
ends), the greedy group captures exactly that value on its first try. -/
theorem matchToks_greedy_sep {ts : List Tok} {rest : List Char} {v : List Char}
    (hvne : v ≠ []) (hvns : ∀ c ∈ v, (!(c == '/')) = true)
    (hrest : rest = [] ∨ ∃ r', rest = '/' :: r')
    {caps : List (List Char)} (hm : matchToks ts rest = some caps) (hn : String) :
    matchToks (Tok.param hn :: ts) (v ++ rest) = some (v :: caps) := by
  simp only [matchToks]
  have htw : (v ++ rest).takeWhile (fun c => !(c == '/')) = v := by
    rw [List.takeWhile_append_of_pos hvns]
    rcases hrest with rfl | ⟨r', rfl⟩
    · simp
    · simp [List.takeWhile_cons]
  rw [htw]
  cases hvl : v.length with
  | zero =>
    exact absurd (List.length_eq_zero.mp hvl) hvne
  | succ m =>
    simp only [downFrom]
    apply firstSome_head
    rw [← hvl, List.drop_left, List.take_left, hm]
    rfl

/-- One placeholder substitution step of `compileWith`, in equation form. -/
theorem compileWith_param_cons {fmt : String} {ps : List (String × String)}
    {n : String} {ts : List Tok} {v : String} {out : List Char}
    (hg : getParam ps n = some v) (hv : v ≠ "")
    (hrec : compileWith fmt ps ts = Except.ok out) :
    compileWith fmt ps (Tok.param n :: ts) = Except.ok (v.data ++ out) := by
  simp [compileWith, hg, hv, hrec, Except.map]

/-- Under separated placeholders and good values, substitution succeeds and
matching the produced path captures back exactly the substituted values. -/
theorem compile_match_round {fmt : String} {ps : List (String × String)} :
    ∀ ts : List Tok, sepOK ts = true → goodVals ps (paramNamesOf ts) = true →
      ∃ (out : List Char) (caps : List (List Char)),
        compileWith fmt ps ts = Except.ok out ∧
        matchToks ts out = some caps ∧
        List.Forall₂ (fun n v => getParam ps n = some (String.mk v))
          (paramNamesOf ts) caps ∧
        (ts = [] ∨ (∃ c ts', ts = Tok.lit c :: ts' ∧ ∃ o', out = c :: o') ∨
          (∃ n ts', ts = Tok.param n :: ts' ∧ out ≠ [])) := by
  intro ts
  induction ts with
  | nil =>
    intro _ _
    exact ⟨[], [], rfl, rfl, List.Forall₂.nil, Or.inl rfl⟩
  | cons t ts ih =>
    intro hsep hgv
    cases t with
    | lit c =>
      have hsep' : sepOK ts = true := by simpa [sepOK] using hsep
      have hgv' : goodVals ps (paramNamesOf ts) = true := by
        simpa [paramNamesOf] using hgv
      obtain ⟨out, caps, hcw, hm, hf, _⟩ := ih hsep' hgv'
      refine ⟨c :: out, caps, ?_, ?_, ?_, ?_⟩
      · simp [compileWith, hcw, Except.map]
      · simp [matchToks, litMatch_self, hm]
      · simpa [paramNamesOf] using hf
      · exact Or.inr (Or.inl ⟨c, ts, rfl, out, rfl⟩)
    | param n =>
      have hgd : (match getParam ps n with
          | none => false
          | some v => !(v == "") && v.data.all (fun c => !(c == '/'))) = true ∧
          goodVals ps (paramNamesOf ts) = true := by
        simpa [goodVals, paramNamesOf, Bool.and_eq_true] using hgv
      cases hg : getParam ps n with
      | none =>
        rw [hg] at hgd
        simp at hgd
      | some v =>
        rw [hg] at hgd
        have hv : (!(v == "")) = true ∧ v.data.all (fun c => !(c == '/')) = true := by
          simpa [Bool.and_eq_true] using hgd.1
        have hvne : v ≠ "" := by
          have := hv.1
          simp only [Bool.not_eq_eq_eq_not, Bool.not_true] at this
          exact beq_eq_false_iff_ne.mp this
        have hdne : v.data ≠ [] := data_ne_nil hvne
        have hvns : ∀ c ∈ v.data, (!(c == '/')) = true := List.all_eq_true.mp hv.2
        cases ts with
        | nil =>
          refine ⟨v.data, [v.data], ?_, ?_, ?_, ?_⟩
          · simp [compileWith, hg, hvne, Except.map]
          · have h0 : matchToks ([] : List Tok) [] = some [] := rfl
            have := matchToks_greedy_sep hdne hvns (Or.inl rfl) h0 n
            simpa using this
          · simp only [paramNamesOf]
            exact List.Forall₂.cons (by rw [hg, stringMk_data]) List.Forall₂.nil
          · refine Or.inr (Or.inr ⟨n, [], rfl, ?_⟩)
            simpa using hdne
        | cons t' ts' =>
          cases t' with
          | param m => simp [sepOK] at hsep
          | lit c =>
            have hc : c = '/' ∧ sepOK (Tok.lit c :: ts') = true := by
              simpa [sepOK, Bool.and_eq_true, beq_iff_eq] using hsep
            obtain ⟨rfl, hsep'⟩ := hc
            have hgv' : goodVals ps (paramNamesOf (Tok.lit '/' :: ts')) = true := by
              simpa [paramNamesOf] using hgd.2
            obtain ⟨out, caps, hcw, hm, hf, hshape⟩ := ih hsep' hgv'
            have hout : ∃ o2, out = '/' :: o2 := by
              rcases hshape with h0 | hlit | hpar
              · cases h0
              · obtain ⟨c₂, ts₂, he, o2, rfl⟩ := hlit
                injection he with he1 he2
                injection he1 with hc2
                exact ⟨o2, by rw [hc2]⟩
              · obtain ⟨n₂, ts₂, he, _⟩ := hpar
                cases he
            obtain ⟨o', rfl⟩ := hout
            refine ⟨v.data ++ ('/' :: o'), v.data :: caps, ?_, ?_, ?_, ?_⟩
            · exact compileWith_param_cons hg hvne hcw
            · exact matchToks_greedy_sep hdne hvns (Or.inr ⟨o', rfl⟩) hm n
            · simp only [paramNamesOf]
              exact List.Forall₂.cons (by rw [hg, stringMk_data]) hf
            · refine Or.inr (Or.inr ⟨n, Tok.lit '/' :: ts', rfl, ?_⟩)
              intro e
              exact hdne (List.append_eq_nil.mp e).1

/-- With plain literals, the generated pattern holds exactly one opening
parenthesis — hence one capturing group — per placeholder. -/
theorem count_paren_regexStringOf : ∀ ts : List Tok, plainToks ts = true →
    (regexStringOf ts).count '(' = (paramNamesOf ts).length := by
  intro ts
  induction ts with
  | nil =>
    intro _
    rfl
  | cons t ts ih =>
    intro hpl
    cases t with
    | lit c =>
      have hpl' : plainChar c = true ∧ plainToks ts = true := by
        simpa [plainToks, Bool.and_eq_true] using hpl
      have hc : c ≠ '(' := by
        intro e
        subst e
        simp [plainChar] at hpl'
      simp [regexStringOf, paramNamesOf, List.count_cons, hc, ih hpl'.2]
    | param n =>
      have hpl' : plainToks ts = true := by simpa [plainToks] using hpl
      have hpr : paramRegex.count '(' = 1 := by decide
      simp [regexStringOf, paramNamesOf, List.count_append, hpr, ih hpl',
        Nat.add_comm]

/-- C1 (counterexample): the match contract fails as the claim states it —
the static route built from the template whose literal text contains an
unescaped dot accepts a path different from its format. -/
theorem c1_match_counterexample :
    Route.mk? "/a." = some dotRoute ∧ dotRoute.isStatic = true ∧
    dotRoute.matchPath "/ab" = true ∧ ("/ab" : String) ≠ "/a." := by
  refine ⟨?_, ?_, ?_, ?_⟩ <;> decide

/-- C1 (amended): for a route whose literal characters are all plain,
`match` accepts a path exactly when it conforms to the template — literal
characters verbatim, each placeholder consuming one or more non-separator
characters, the whole path consumed — and a static route accepts exactly its
own format. -/
theorem c1_match_iff (fmt path : String) (r : Route)
    (hmk : Route.mk? fmt = some r) (hpl : plainToks r.toks = true) :
    (r.matchPath path = true ↔ ∃ caps, MatchesW r.toks path.data caps) ∧
    (r.isStatic = true → (r.matchPath path = true ↔ path = fmt)) := by
  obtain ⟨hfmt, htoks, hnames, hstat, -⟩ := mkQ_fields hmk
  constructor
  · constructor
    · intro h
      obtain ⟨caps, hc⟩ := Option.isSome_iff_exists.mp h
      exact ⟨caps, matchToks_sound _ _ _ hpl hc⟩
    · rintro ⟨caps, hc⟩
      exact matchToks_complete hc
  · intro hst
    have hempty : paramNamesOf (tokenize fmt.data) = [] := by
      rw [hstat] at hst
      exact List.isEmpty_iff.mp hst
    unfold Route.matchPath
    rw [htoks] at hpl ⊢
    rw [matchToks_static (tokenize fmt.data) path.data hempty hpl]
    rw [renderToks_tokenize]
    constructor
    · intro h
      cases path with
      | mk pd =>
        cases fmt with
        | mk fd => exact congrArg String.mk h
    · intro h
      rw [h]

/-- C1 witness at the one-placeholder route and a conforming path. -/
theorem c1_match_iff_witness :
    (fooBarRoute.matchPath "/foo/abc" = true ↔
      ∃ caps, MatchesW fooBarRoute.toks ("/foo/abc" : String).data caps) ∧
    (fooBarRoute.isStatic = true →
      (fooBarRoute.matchPath "/foo/abc" = true ↔ ("/foo/abc" : String) = "/foo/{bar}")) :=
  c1_match_iff "/foo/{bar}" "/foo/abc" fooBarRoute (by decide) (by decide)

/-- C2 (amended): for a route whose literal characters are all plain,
`parse` returns null exactly when `match` fails; a matching static path
yields the empty object; and on a match the parsed object has distinct
keys — exactly the placeholder names — with each name mapped to the capture
of its last occurrence in the template.  The restriction is needed: a
parenthesised literal adds a capture group of its own and the loop then
writes an entry under the key "undefined" (see the counterexample). -/
theorem c2_parse_spec (fmt path : String) (r : Route) (caps : List (List Char))
    (hmk : Route.mk? fmt = some r) (hpl : plainToks r.toks = true) :
    (r.parse path = none ↔ r.matchPath path = false) ∧
    (r.isStatic = true → r.matchPath path = true → r.parse path = some []) ∧
    (matchToks r.toks path.data = some caps →
      ∃ ps, r.parse path = some ps ∧
        ((ps.map Prod.fst).Nodup ∧ ∀ n, n ∈ ps.map Prod.fst ↔ n ∈ r.paramNames) ∧
        ∀ n, getParam ps n = lastAssoc (r.paramNames.zip (caps.map String.mk)) n) := by
  obtain ⟨hfmt, htoks, hnames, hstat, -⟩ := mkQ_fields hmk
  have hpn : paramNamesOf r.toks = r.paramNames := by
    rw [htoks, hnames]
  refine ⟨?_, ?_, ?_⟩
  · unfold Route.parse Route.matchPath
    cases matchToks r.toks path.data <;> simp
  · intro hst hm
    have hempty : r.paramNames = [] := by
      rw [hnames, ← List.isEmpty_iff]
      rw [hstat] at hst
      exact hst
    unfold Route.parse
    obtain ⟨caps', hc⟩ := Option.isSome_iff_exists.mp hm
    rw [hc, hempty]
    rfl
  · intro hm
    refine ⟨buildParams r.paramNames (caps.map String.mk), ?_, ⟨?_, ?_⟩, ?_⟩
    · unfold Route.parse
      rw [hm]
      rfl
    · exact keys_buildParams_nodup _ _
    · intro n
      rw [mem_keys_buildParams, zip_keys_take]
      have hlen : caps.length = r.paramNames.length := by
        rw [← hpn]
        exact matchToks_caps_len _ _ _ hm
      have hzlen : (r.paramNames.zip (caps.map String.mk)).length = r.paramNames.length := by
        simp [List.length_zip, hlen]
      rw [hzlen, List.take_length]
    · intro n
      exact getParam_buildParams _ _ n

/-- C2 witness at the one-placeholder route. -/
theorem c2_parse_spec_witness :
    (fooBarRoute.parse "/foo/abc" = none ↔ fooBarRoute.matchPath "/foo/abc" = false) ∧
    getParam [("bar", "abc")] "bar" =
      lastAssoc (fooBarRoute.paramNames.zip ([['a', 'b', 'c']].map String.mk)) "bar" := by
  refine ⟨(c2_parse_spec "/foo/{bar}" "/foo/abc" fooBarRoute [['a', 'b', 'c']]
    (by decide) (by decide)).1, ?_⟩
  obtain ⟨ps, hps, -, hlook⟩ := (c2_parse_spec "/foo/{bar}" "/foo/abc" fooBarRoute
    [['a', 'b', 'c']] (by decide) (by decide)).2.2 (by decide)
  have hps' : ps = [("bar", "abc")] := by
    have hc : fooBarRoute.parse "/foo/abc" = some [("bar", "abc")] := by decide
    rw [hc] at hps
    exact (Option.some.inj hps).symm
  rw [← hps']
  exact hlook "bar"

/-- C9: literal template text is compiled into the pattern unescaped — the
dot of the template survives verbatim and acts as a wildcard, so this static
route accepts a path that differs from its literal text at that position. -/
theorem c9_unescaped_metachar :
    dotRoute.regex = ("^/a.$" : String).data ∧
    dotRoute.isStatic = true ∧
    dotRoute.matchPath "/ab" = true ∧ ("/ab" : String) ≠ "/a." := by
  refine ⟨?_, ?_, ?_, ?_⟩ <;> decide

/-- C10: construction is not total — a template with a lone opening
parenthesis produces an ill-formed pattern and the constructor fails, while
an ordinary template constructs a route. -/
theorem c10_constructor_total :
    Route.mk? "/a(" = none ∧ (Route.mk? "/a").isSome = true := by
  constructor <;> decide

/-- Pairs of a zip of related lists are related. -/
theorem forall₂_zip_rel {R : String → List Char → Prop} :
    ∀ {l₁ : List String} {l₂ : List (List Char)}, List.Forall₂ R l₁ l₂ →
      ∀ p ∈ l₁.zip l₂, R p.1 p.2 := by
  intro l₁ l₂ h
  induction h with
  | nil =>
    intro p hp
    cases hp
  | @cons a b l₁ l₂ hr hrest ih =>
    intro p hp
    rw [List.zip_cons_cons] at hp
    rcases List.mem_cons.mp hp with rfl | hp'
    · exact hr
    · exact ih p hp'

/-- C3 (counterexample): the round-trip law fails as stated — the static
route accepts its format, `parse` returns the empty object, and `compile`
applied to that object throws instead of reproducing the path. -/
theorem c3_roundtrip_counterexample :
    fooRoute.parse "/foo" = some [] ∧
    fooRoute.compile (some []) =
      Except.error (CompileError.unexpectedParameters "/foo") := by
  constructor <;> decide

/-- C3 (amended): for a dynamic route with pairwise-distinct placeholder
names and plain literal characters, compiling the object parsed from an
accepted path reproduces the path exactly. -/
theorem c3_roundtrip (fmt path : String) (r : Route)
    (ps : List (String × String))
    (hmk : Route.mk? fmt = some r) (hpl : plainToks r.toks = true)
    (hdyn : r.isStatic = false) (hnd : r.paramNames.Nodup)
    (hps : r.parse path = some ps) :
    r.compile (some ps) = Except.ok path := by
  obtain ⟨hfmt, htoks, hnames, hstat, -⟩ := mkQ_fields hmk
  have hpn : paramNamesOf r.toks = r.paramNames := by
    rw [htoks, hnames]
  unfold Route.parse at hps
  obtain ⟨caps, hm, hps'⟩ := Option.map_eq_some'.mp hps
  have hmw : MatchesW r.toks path.data caps := matchToks_sound _ _ _ hpl hm
  have hcne : ∀ v ∈ caps, v ≠ [] := matchesW_caps_ne hmw
  have hvals : ∀ nv ∈ (paramNamesOf r.toks).zip caps,
      getParam ps nv.1 = some (String.mk nv.2) := by
    intro nv hnv
    rw [← hps']
    rw [hpn] at hnv
    have hmem : (nv.1, String.mk nv.2) ∈ r.paramNames.zip (caps.map String.mk) := by
      rw [List.zip_map_right]
      exact List.mem_map.mpr ⟨nv, hnv, rfl⟩
    exact getParam_buildParams_nodup hnd hmem
  have hcw : compileWith r.format ps r.toks = Except.ok path.data :=
    compileWith_ok hmw hvals
  unfold Route.compile
  rw [hdyn]
  simp only [Bool.false_eq_true, if_false]
  rw [hcw]
  simp [Except.map, stringMk_data]

/-- C3 witness at the one-placeholder route and a conforming path. -/
theorem c3_roundtrip_witness :
    fooBarRoute.compile (some [("bar", "abc")]) = Except.ok "/foo/abc" :=
  c3_roundtrip "/foo/{bar}" "/foo/abc" fooBarRoute [("bar", "abc")]
    (by decide) (by decide) (by decide) (by decide) (by decide)

/-- Every name in a mapping that passes the value check has a non-empty
separator-free value. -/
theorem goodVals_mem {ps : List (String × String)} : ∀ {names : List String},
    goodVals ps names = true → ∀ n ∈ names,
      ∃ v, getParam ps n = some v ∧ v ≠ "" ∧ ∀ c ∈ v.data, (!(c == '/')) = true := by
  intro names
  induction names with
  | nil =>
    intro _ n hn
    cases hn
  | cons m names ih =>
    intro h n hn
    have h' : (match getParam ps m with
        | none => false
        | some v => !(v == "") && v.data.all (fun c => !(c == '/'))) = true ∧
        goodVals ps names = true := by
      simpa [goodVals, Bool.and_eq_true] using h
    rcases List.mem_cons.mp hn with rfl | hn'
    · cases hg : getParam ps n with
      | none =>
        rw [hg] at h'
        simp at h'
      | some v =>
        rw [hg] at h'
        have hv : (!(v == "")) = true ∧ v.data.all (fun c => !(c == '/')) = true := by
          simpa [Bool.and_eq_true] using h'.1
        refine ⟨v, rfl, ?_, List.all_eq_true.mp hv.2⟩
        have := hv.1
        simp only [Bool.not_eq_eq_eq_not, Bool.not_true] at this
        exact beq_eq_false_iff_ne.mp this
    · exact ih h'.2 n hn'

/-- C4 (counterexample): the compile-then-parse round trip fails as stated —
for the adjacent-placeholder template, the values satisfy the claim's
conditions (non-empty, separator-free), yet greedy matching re-splits the
compiled path and the parsed object differs from the values. -/
theorem c4_roundtrip_counterexample :
    goodVals [("a", "x"), ("b", "yz")] abRoute.paramNames = true ∧
    abRoute.compile (some [("a", "x"), ("b", "yz")]) = Except.ok "xyz" ∧
    abRoute.parse "xyz" = some [("a", "xy"), ("b", "z")] ∧
    getParam [("a", "xy"), ("b", "z")] "a" ≠ getParam [("a", "x"), ("b", "yz")] "a" := by
  refine ⟨?_, ?_, ?_, ?_⟩ <;> decide

/-- C4 (amended): for a dynamic route whose placeholders are each followed
by a literal separator or the template end and whose literals are plain,
compiling a mapping that assigns every placeholder a non-empty
separator-free value succeeds, and parsing the produced path returns the
restriction of that mapping to the placeholder names. -/
theorem c4_roundtrip (fmt : String) (r : Route) (ps : List (String × String))
    (hmk : Route.mk? fmt = some r) (hpl : plainToks r.toks = true)
    (hdyn : r.isStatic = false) (hsep : sepOK r.toks = true)
    (hgv : goodVals ps r.paramNames = true) :
    ∃ (s : String) (ps' : List (String × String)),
      r.compile (some ps) = Except.ok s ∧ r.parse s = some ps' ∧
      (∀ n, n ∈ r.paramNames → getParam ps' n = getParam ps n) ∧
      (∀ n, n ∉ r.paramNames → getParam ps' n = none) := by
  obtain ⟨hfmt, htoks, hnames, hstat, -⟩ := mkQ_fields hmk
  have hpn : paramNamesOf r.toks = r.paramNames := by
    rw [htoks, hnames]
  have hgv' : goodVals ps (paramNamesOf r.toks) = true := by
    rw [hpn]
    exact hgv
  obtain ⟨out, caps, hcw, hm, hf, -⟩ := compile_match_round r.toks hsep hgv'
  have hflen : (paramNamesOf r.toks).length = caps.length := hf.length_eq
  have hzlen : (r.paramNames.zip (caps.map String.mk)).length = r.paramNames.length := by
    simp [List.length_zip, ← hpn, hflen]
  refine ⟨String.mk out, buildParams r.paramNames (caps.map String.mk), ?_, ?_, ?_, ?_⟩
  · unfold Route.compile
    rw [hdyn]
    simp only [Bool.false_eq_true, if_false]
    rw [hcw]
    rfl
  · unfold Route.parse
    have hdata : (String.mk out).data = out := rfl
    rw [hdata, hm]
    rfl
  · intro n hn
    rw [getParam_buildParams]
    obtain ⟨w, hw, hwne, hwns⟩ := goodVals_mem hgv n hn
    rw [hw]
    apply lastAssoc_const
    · intro p hp hpn'
      rw [List.zip_map_right] at hp
      obtain ⟨q, hq, hq'⟩ := List.mem_map.mp hp
      have hrel : getParam ps q.1 = some (String.mk q.2) :=
        forall₂_zip_rel (hpn ▸ hf) q hq
      have hp1 : p.1 = q.1 := by
        rw [← hq']
        simp [Prod.map]
      have hp2 : p.2 = String.mk q.2 := by
        rw [← hq']
        simp [Prod.map]
      rw [hp2]
      rw [← hp1, hpn'] at hrel
      rw [hw] at hrel
      exact (Option.some.inj hrel).symm
    · rw [zip_keys_take, hzlen, List.take_length]
      exact hn
  · intro n hn
    rw [getParam_buildParams]
    unfold lastAssoc
    have hnone : (r.paramNames.zip (caps.map String.mk)).reverse.find?
        (fun p => p.1 == n) = none := by
      rw [List.find?_eq_none]
      intro p hp hpk
      apply hn
      have hp' : p ∈ r.paramNames.zip (caps.map String.mk) := List.mem_reverse.mp hp
      have : p.1 ∈ (r.paramNames.zip (caps.map String.mk)).map Prod.fst :=
        List.mem_map.mpr ⟨p, hp', rfl⟩
      rw [zip_keys_take, hzlen, List.take_length] at this
      rw [← beq_iff_eq.mp hpk]
      exact this
    rw [hnone]
    rfl

/-- C4 witness at the one-placeholder route. -/
theorem c4_roundtrip_witness :
    ∃ (s : String) (ps' : List (String × String)),
      fooBarRoute.compile (some [("bar", "abc")]) = Except.ok s ∧
      fooBarRoute.parse s = some ps' ∧
      (∀ n, n ∈ fooBarRoute.paramNames →
        getParam ps' n = getParam [("bar", "abc")] n) ∧
      (∀ n, n ∉ fooBarRoute.paramNames → getParam ps' n = none) :=
  c4_roundtrip "/foo/{bar}" fooBarRoute [("bar", "abc")]
    (by decide) (by decide) (by decide) (by decide) (by decide)

/-- C5 (counterexample): an explicitly-empty mapping is not treated as
absent — the static route rejects it with the unexpected-parameters error
instead of succeeding with the format. -/
theorem c5_static_empty_counterexample :
    fooRoute.compile (some []) =
      Except.error (CompileError.unexpectedParameters "/foo") ∧
    fooRoute.compile (some []) ≠ Except.ok "/foo" := by
  constructor <;> decide

/-- C5 (amended): a static route's `compile` succeeds, returning the format,
only when the mapping is absent; any supplied mapping — the empty one
included — fails with the unexpected-parameters error identifying the
format. -/
theorem c5_static_compile (fmt : String) (r : Route)
    (hmk : Route.mk? fmt = some r) (hst : r.isStatic = true) :
    r.compile none = Except.ok fmt ∧
    ∀ ps : List (String × String),
      r.compile (some ps) = Except.error (CompileError.unexpectedParameters fmt) := by
  obtain ⟨hfmt, -, -, -, -⟩ := mkQ_fields hmk
  constructor
  · simp [Route.compile, hst, hfmt]
  · intro ps
    simp [Route.compile, hst, hfmt]

/-- C5 witness at the static route. -/
theorem c5_static_compile_witness :
    fooRoute.compile none = Except.ok "/foo" ∧
    fooRoute.compile (some [("x", "y")]) =
      Except.error (CompileError.unexpectedParameters "/foo") :=
  ⟨(c5_static_compile "/foo" fooRoute (by decide) (by decide)).1,
   (c5_static_compile "/foo" fooRoute (by decide) (by decide)).2 [("x", "y")]⟩

/-- C6 (counterexample): passing an explicitly-empty object to a dynamic
route does not raise the missing-parameters error — the empty object is
truthy, so the missing-named-parameter error of the first placeholder is
raised instead. -/
theorem c6_empty_counterexample :
    fooBarRoute.compile (some []) =
      Except.error (CompileError.missingNamedParameter "bar" "/foo/{bar}") ∧
    fooBarRoute.compile (some []) ≠
      Except.error (CompileError.missingParameters "/foo/{bar}") := by
  constructor <;> decide

/-- C6 (amended): a dynamic route raises missing-parameters exactly when
called with no mapping at all; an explicitly-empty mapping counts as present
and raises the missing-named-parameter error for the first placeholder. -/
theorem c6_empty_params (fmt : String) (r : Route) (n₀ : String)
    (rest : List String) (hmk : Route.mk? fmt = some r)
    (hdyn : r.isStatic = false) (hn : r.paramNames = n₀ :: rest) :
    r.compile none = Except.error (CompileError.missingParameters fmt) ∧
    r.compile (some []) =
      Except.error (CompileError.missingNamedParameter n₀ fmt) := by
  obtain ⟨hfmt, htoks, hnames, -, -⟩ := mkQ_fields hmk
  have hpn : paramNamesOf r.toks = n₀ :: rest := by
    rw [htoks, ← hnames, hn]
  constructor
  · simp [Route.compile, hdyn, hfmt]
  · have he : compileWith r.format [] r.toks =
        Except.error (CompileError.missingNamedParameter n₀ r.format) :=
      compileWith_empty r.toks n₀ rest hpn
    rw [← hfmt]
    simp [Route.compile, hdyn, he, Except.map]

/-- C6 witness at the one-placeholder route. -/
theorem c6_empty_params_witness :
    fooBarRoute.compile none =
      Except.error (CompileError.missingParameters "/foo/{bar}") ∧
    fooBarRoute.compile (some []) =
      Except.error (CompileError.missingNamedParameter "bar" "/foo/{bar}") :=
  c6_empty_params "/foo/{bar}" fooBarRoute "bar" [] (by decide) (by decide) (by decide)

/-- C7: for a dynamic route and a non-empty mapping, if some placeholder's
value is absent or falsy (the empty string), compilation fails with a
missing-named-parameter error identifying such a placeholder and the format;
an empty string is never substituted. -/
theorem c7_missing_named (fmt : String) (r : Route)
    (ps : List (String × String)) (hmk : Route.mk? fmt = some r)
    (hdyn : r.isStatic = false) (hne : ps ≠ [])
    (hmiss : ∃ n ∈ r.paramNames, getParam ps n = none ∨ getParam ps n = some "") :
    ∃ n, (n ∈ r.paramNames ∧ (getParam ps n = none ∨ getParam ps n = some "")) ∧
      r.compile (some ps) =
        Except.error (CompileError.missingNamedParameter n fmt) := by
  obtain ⟨hfmt, htoks, hnames, -, -⟩ := mkQ_fields hmk
  have hpn : paramNamesOf r.toks = r.paramNames := by
    rw [htoks, hnames]
  have hmiss' : ∃ n ∈ paramNamesOf r.toks,
      getParam ps n = none ∨ getParam ps n = some "" := by
    rw [hpn]
    exact hmiss
  obtain ⟨n, hn, he⟩ := @compileWith_missing r.format ps r.toks hmiss'
  refine ⟨n, ⟨?_, hn.2⟩, ?_⟩
  · rw [← hpn]
    exact hn.1
  · rw [← hfmt]
    simp [Route.compile, hdyn, he, Except.map]

/-- C7 witness: a non-empty mapping that misses the placeholder. -/
theorem c7_missing_named_witness :
    ∃ n, (n ∈ fooBarRoute.paramNames ∧
      (getParam [("x", "y")] n = none ∨ getParam [("x", "y")] n = some "")) ∧
      fooBarRoute.compile (some [("x", "y")]) =
        Except.error (CompileError.missingNamedParameter n "/foo/{bar}") :=
  c7_missing_named "/foo/{bar}" fooBarRoute [("x", "y")]
    (by decide) (by decide) (by decide) (by decide)

/-- C8 (amended): for a route whose literal characters are all plain, the
construction invariants hold — the static flag holds exactly when the name
list is empty, the anchored pattern contains one capturing group (one
opening parenthesis) per placeholder name, every successful match yields one
capture per name, and `parse` pairs capture i with name i positionally.
The restriction is needed: a parenthesised literal adds a capture group
beyond the placeholder count (see the counterexample). -/
theorem c8_invariants (fmt : String) (r : Route)
    (hmk : Route.mk? fmt = some r) (hpl : plainToks r.toks = true) :
    (r.isStatic = true ↔ r.paramNames = []) ∧
    r.regex.count '(' = r.paramNames.length ∧
    (∀ (cs : List Char) (caps : List (List Char)),
      matchToks r.toks cs = some caps → caps.length = r.paramNames.length) ∧
    (∀ path : String, r.parse path =
      (matchToks r.toks path.data).map
        (fun caps => buildParams r.paramNames (caps.map String.mk))) := by
  obtain ⟨hfmt, htoks, hnames, hstat, hregex⟩ := mkQ_fields hmk
  have hpn : paramNamesOf r.toks = r.paramNames := by
    rw [htoks, hnames]
  refine ⟨?_, ?_, ?_, ?_⟩
  · rw [hstat, hnames]
    exact ⟨List.isEmpty_iff.mp, List.isEmpty_iff.mpr⟩
  · rw [hregex, ← hpn, htoks]
    have h1 : ('^' : Char) ≠ '(' := by decide
    have h2 : ('$' : Char) ≠ '(' := by decide
    rw [← htoks]
    simp [List.count_cons, List.count_append, h1, h2,
      count_paren_regexStringOf r.toks hpl]
  · intro cs caps hm
    rw [← hpn]
    exact matchToks_caps_len _ _ _ hm
  · intro path
    rfl

/-- C8 witness at the one-placeholder route. -/
theorem c8_invariants_witness :
    (fooBarRoute.isStatic = true ↔ fooBarRoute.paramNames = []) ∧
    fooBarRoute.regex.count '(' = fooBarRoute.paramNames.length :=
  ⟨(c8_invariants "/foo/{bar}" fooBarRoute (by decide) (by decide)).1,
   (c8_invariants "/foo/{bar}" fooBarRoute (by decide) (by decide)).2.1⟩

/-- Pointwise-equal candidate functions search identically. -/
theorem firstSome_congr {α : Type} {f g : Nat → Option α}
    (h : ∀ k, f k = g k) : ∀ l : List Nat, firstSome f l = firstSome g l := by
  intro l
  induction l with
  | nil => rfl
  | cons k ks ih =>
    simp only [firstSome, h k, ih]

/-- On plain-literal templates the group view is total and introduces no
literal groups: it is just the injection of the tokens. -/
theorem toGToks_plain : ∀ ts : List Tok, plainToks ts = true →
    toGToks ts = some (ts.map convTok) := by
  intro ts hpl
  have hfold : ∀ us : List Tok, plainToks us = true →
      us.foldr pushG [] = us.map convTok := by
    intro us
    induction us with
    | nil =>
      intro _
      rfl
    | cons t us ih =>
      intro h
      cases t with
      | lit c =>
        have h' : plainChar c = true ∧ plainToks us = true := by
          simpa [plainToks, Bool.and_eq_true] using h
        have hc : c ≠ '(' := by
          intro e
          subst e
          simp [plainChar] at h'
        show pushG (Tok.lit c) (us.foldr pushG []) = convTok (Tok.lit c) :: us.map convTok
        rw [ih h'.2]
        simp [pushG, hc, convTok]
      | param n =>
        have h' : plainToks us = true := by simpa [plainToks] using h
        show pushG (Tok.param n) (us.foldr pushG []) = convTok (Tok.param n) :: us.map convTok
        rw [ih h']
        simp [pushG, convTok]
  have hok : ∀ us : List Tok, plainToks us = true →
      (us.map convTok).all gtokOK = true := by
    intro us
    induction us with
    | nil =>
      intro _
      rfl
    | cons t us ih =>
      intro h
      cases t with
      | lit c =>
        have h' : plainChar c = true ∧ plainToks us = true := by
          simpa [plainToks, Bool.and_eq_true] using h
        simp [convTok, gtokOK, h'.1, ih h'.2]
      | param n =>
        have h' : plainToks us = true := by simpa [plainToks] using h
        simp [convTok, gtokOK, ih h']
  unfold toGToks
  rw [hfold ts hpl, if_pos (hok ts hpl)]

/-- On the injected group view, the group matcher is the narrow matcher. -/
theorem matchGToks_eq_matchToks : ∀ (ts : List Tok) (cs : List Char),
    matchGToks (ts.map convTok) cs = matchToks ts cs := by
  intro ts
  induction ts with
  | nil =>
    intro cs
    cases cs with
    | nil => rfl
    | cons x xs => rfl
  | cons t ts ih =>
    intro cs
    cases t with
    | lit c =>
      cases cs with
      | nil => rfl
      | cons x xs =>
        show (if litMatch c x then matchGToks (ts.map convTok) xs else none) =
          (if litMatch c x then matchToks ts xs else none)
        rw [ih xs]
    | param n =>
      show firstSome _ _ = firstSome _ _
      apply firstSome_congr
      intro k
      rw [ih (cs.drop k)]

/-- When there are at least as many names as captures, the loop with the
undefined-key fallback builds the same object as the positional zip. -/
theorem buildParamsJS_eq_buildParams (names : List String) (vals : List String)
    (h : vals.length ≤ names.length) :
    buildParamsJS names vals = buildParams names vals := by
  unfold buildParamsJS buildParams padNames
  rw [Nat.sub_eq_zero_of_le h]
  rw [List.replicate_zero, List.append_nil]

/-- On a constructed route with plain literals, the widened parse model and
the narrow one coincide: the refinement is conservative. -/
theorem parseG_eq_parse (fmt path : String) (r : Route)
    (hmk : Route.mk? fmt = some r) (hpl : plainToks r.toks = true) :
    r.parseG path = r.parse path := by
  obtain ⟨-, htoks, hnames, -, -⟩ := mkQ_fields hmk
  have hpn : paramNamesOf r.toks = r.paramNames := by
    rw [htoks, hnames]
  unfold Route.parseG
  rw [toGToks_plain r.toks hpl]
  show Option.map (fun caps => buildParamsJS r.paramNames (List.map String.mk caps))
      (matchGToks (r.toks.map convTok) path.data) = r.parse path
  rw [matchGToks_eq_matchToks]
  unfold Route.parse
  cases hmt : matchToks r.toks path.data with
  | none => rfl
  | some caps =>
    simp only [Option.map_some']
    have hlen : caps.length = r.paramNames.length := by
      rw [← hpn]
      exact matchToks_caps_len _ _ _ hmt
    rw [buildParamsJS_eq_buildParams]
    rw [List.length_map, hlen]

/-- C2 (counterexample): the parse contract fails as the claim states it —
the route built from a template with a parenthesised literal is static, yet
the literal parenthesis is a capture group, so parsing a matching path
yields an object with one entry under the key "undefined" (the assignment
`params[paramNames[0]]` with no name) instead of the empty mapping, and that
key is not among the placeholder names. -/
theorem c2_parse_counterexample :
    Route.mk? "/(x)" = some parenRoute ∧
    parenRoute.isStatic = true ∧
    parenRoute.paramNames = [] ∧
    parenRoute.parseG "/x" = some [("undefined", "x")] ∧
    parenRoute.parseG "/x" ≠ some [] ∧
    ("undefined" : String) ∉ parenRoute.paramNames := by
  refine ⟨?_, ?_, ?_, ?_, ?_, ?_⟩ <;> decide

/-- C8 (counterexample): the capture-group invariant fails as the claim
states it — the same parenthesised-literal route has an empty name list but
its pattern holds one capturing group, which captures text on a match. -/
theorem c8_group_count_counterexample :
    Route.mk? "/(x)" = some parenRoute ∧
    parenRoute.paramNames = [] ∧
    parenRoute.regex.count '(' = 1 ∧
    parenRoute.regex.count '(' ≠ parenRoute.paramNames.length ∧
    toGToks parenRoute.toks = some [GTok.lit '/', GTok.grp ['x']] ∧
    matchGToks [GTok.lit '/', GTok.grp ['x']] ("/x" : String).data = some [['x']] := by
  refine ⟨?_, ?_, ?_, ?_, ?_, ?_⟩ <;> decide
